import Mathlib

/-!
Shallow embedding of the preprocessing-pipeline core of this repository
(`backend/preprocessing/pipeline.py`, `backend/preprocessing/progress.py`,
`backend/preprocessing/operations.py`).

Dynamic Python values (step-list entries, parameter dictionaries) are
embedded as the inductive `JVal`.  Python operations that can raise an
exception are embedded in `Except String`; an `Except.error` models an
uncaught Python exception, while errors that the executor catches per step
are recorded in the result's error list exactly as the source does.
Images are an abstract type parameter `I`: the executor never inspects the
buffer, it only threads it through the registered operations, which are
supplied as an implementation map `Impl I` (the cv2-based bodies are outside
the executor).  Fractional progress values and percentages are embedded as
rationals.
-/

namespace RenOCR

/-- Dynamic (JSON-like / Python) values appearing in step configurations. -/
inductive JVal where
  | vnull : JVal
  | vbool : Bool → JVal
  | vnum : ℚ → JVal
  | vstr : String → JVal
  | vlist : List JVal → JVal
  | vdict : List (String × JVal) → JVal

/-- Python truthiness of a `JVal` (`if x:`). -/
def truthy : JVal → Bool
  | .vnull => false
  | .vbool b => b
  | .vnum q => q ≠ 0
  | .vstr s => s ≠ ""
  | .vlist xs => !xs.isEmpty
  | .vdict kvs => !kvs.isEmpty

/-- Is the value a Python dict? -/
def JVal.isDict : JVal → Bool
  | .vdict _ => true
  | _ => false

/-- Python `dict.get(key)` on an association list (dict keys are unique,
so the first binding is the binding). -/
def assocGet : List (String × JVal) → String → Option JVal
  | [], _ => none
  | kv :: rest, key => if kv.1 = key then some kv.2 else assocGet rest key

/-- Python `d[key] = v`: replace the binding if present, else append. -/
def assocSet : List (String × JVal) → String → JVal → List (String × JVal)
  | [], key, v => [(key, v)]
  | kv :: rest, key, v =>
    if kv.1 = key then (key, v) :: rest else kv :: assocSet rest key v

/-- `s.get(key, default)` for a dict value; any other receiver has no
`get` attribute and raises `AttributeError` in Python. -/
def jGet (v : JVal) (key : String) (defaultVal : JVal) : Except String JVal :=
  match v with
  | .vdict kvs => .ok ((assocGet kvs key).getD defaultVal)
  | _ => .error "AttributeError: object has no attribute get"

/-- Rough `repr` used when a `JVal` is interpolated into an f-string. -/
def jRepr : JVal → String
  | .vnull => "None"
  | .vbool b => if b then "True" else "False"
  | .vnum q => toString q
  | .vstr s => s
  | .vlist _ => "[...]"
  | .vdict _ => "{...}"

/-! ## Progress model (`progress.py`) -/

/-- `ProgressCallback.__call__`, lines 54–57: each step contributes
`1/total_steps` to overall progress, except that a zero `total_steps`
contributes `1.0` instead of dividing. -/
def step_contribution (total_steps : ℕ) : ℚ :=
  if total_steps > 0 then 1 / total_steps else 1

/-- The unclamped overall percent `(step_index + percent) * contribution * 100`
(`progress.py` line 57). -/
def overall_percent (step_index : ℤ) (percent : ℚ) (total_steps : ℕ) : ℚ :=
  (step_index + percent) * step_contribution total_steps * 100

/-- The percent actually stored in the emitted `ProgressInfo`
(`progress.py` line 61): `min(100, max(0, overall_percent))`. -/
def emitted_percent (step_index : ℤ) (percent : ℚ) (total_steps : ℕ) : ℚ :=
  min 100 (max 0 (overall_percent step_index percent total_steps))

/-! ## Sauvola threshold (`operations.py`, `_sauvola_threshold`) -/

/-- The per-pixel Sauvola threshold `T = mean * (1 + k * (std / R - 1))`
with `R = 128` (`operations.py` lines 535–536). -/
def sauvola_T (mean std k : ℚ) : ℚ :=
  mean * (1 + k * (std / 128 - 1))

/-- Per-pixel output of `_sauvola_threshold` (lines 542–543): the result
starts at 0 and a pixel is set to 255 exactly where `gray > threshold`. -/
def sauvola_pixel (gray : ℚ) (threshold : ℚ) : ℕ :=
  if gray > threshold then 255 else 0

/-! ## Deskew control flow (`operations.py`, `deskew_image`)

The two skew estimators (`_detect_skew_contour`, `_detect_skew_hough`) and
the affine warp (`cv2.getRotationMatrix2D` + `cv2.warpAffine`) are
cv2-level numerics over the pixel buffer; they enter the model as
parameters.  What is embedded is everything `deskew_image` itself does
with their results: estimator fallback, clamping, the small-angle early
return, the center computation, and the output size `(w, h)` passed to
`warpAffine` (which fixes the output dimensions). -/

/-- An image buffer with explicit dimensions and abstract pixel data. -/
structure Img (P : Type) where
  h : ℕ
  w : ℕ
  data : P

/-- Candidate-angle selection, `operations.py` lines 151–163: contour
estimate first; if it is missing or exceeds `maxAngle` in magnitude, the
Hough estimate; a still-missing angle becomes 0; finally the clamp
`max(-max_angle, min(max_angle, angle))`. -/
def deskew_angle (contourAngle houghAngle : Option ℚ) (maxAngle : ℚ) : ℚ :=
  let angle0 : Option ℚ :=
    match contourAngle with
    | none => houghAngle
    | some a => if |a| > maxAngle then houghAngle else some a
  let angle1 : ℚ := angle0.getD 0
  max (-maxAngle) (min maxAngle angle1)

/-- `deskew_image`, lines 142–189: on a negligible clamped angle (<0.1°)
the input is returned unchanged; otherwise the buffer is warped about the
center `(w / 2, h / 2)` into an output of the original `(w, h)` size.
`warp angle center (w, h) img` stands for
`cv2.warpAffine(img, getRotationMatrix2D(center, angle, 1.0), (w, h), INTER_CUBIC, BORDER_REPLICATE)`. -/
def deskew_image {P : Type}
    (contourAngle houghAngle : Option ℚ)
    (warp : ℚ → ℕ × ℕ → ℕ × ℕ → P → P)
    (maxAngle : ℚ) (img : Img P) : Img P :=
  let angle := deskew_angle contourAngle houghAngle maxAngle
  if |angle| < (1 : ℚ) / 10 then
    img
  else
    let center := (img.w / 2, img.h / 2)
    { h := img.h, w := img.w, data := warp angle center (img.w, img.h) img.data }

/-! ## Registry (`operations.py`, `OP_REGISTRY` / `get_operation`) -/

/-- The keys of `OP_REGISTRY` (`operations.py` lines 552–560). -/
def registryNames : List String :=
  ["normalize", "grayscale", "deskew", "denoise", "contrast", "sharpen", "threshold"]

/-- `name in OP_REGISTRY` / `OP_REGISTRY.get(name)` membership: a dict lookup
hashes the key, so an unhashable key (list, dict) raises `TypeError`;
hashable non-members simply miss. -/
def opLookup : JVal → Except String (Option String)
  | .vlist _ => .error "TypeError: unhashable type: list"
  | .vdict _ => .error "TypeError: unhashable type: dict"
  | .vstr s => .ok (if registryNames.contains s then some s else none)
  | _ => .ok none

/-! ## Configuration validator (`pipeline.py`, `validate_pipeline_config`) -/

/-- Error messages contributed by one step of `validate_pipeline_config`
(lines 260–272).  The `op not in OP_REGISTRY` test hashes `op`, hence the
`Except`: a truthy list- or dict-valued `op` raises `TypeError`. -/
def validate_step (i : ℕ) (step : JVal) : Except String (List String) :=
  match step with
  | .vdict kvs => do
    let op := (assocGet kvs "op").getD .vnull
    let opErrs ←
      if !truthy op then
        pure ["Step " ++ toString i ++ ": missing 'op' field"]
      else do
        let mem ← opLookup op
        match mem with
        | some _ => pure []
        | none => pure ["Step " ++ toString i ++ ": unknown operation '" ++ jRepr op ++ "'"]
    let paramErrs :=
      match assocGet kvs "params" with
      | none => []
      | some .vnull => []
      | some (.vdict _) => []
      | some _ => ["Step " ++ toString i ++ ": 'params' must be a dictionary"]
    pure (opErrs ++ paramErrs)
  | _ => pure ["Step " ++ toString i ++ ": must be a dictionary"]

/-- Recursion over the enumerated steps of `validate_pipeline_config`. -/
def validate_steps (i : ℕ) : List JVal → Except String (List String)
  | [] => pure []
  | step :: rest => do
    let here ← validate_step i step
    let there ← validate_steps (i + 1) rest
    pure (here ++ there)

/-- `validate_pipeline_config` (`pipeline.py` lines 248–277): a non-list
input short-circuits; otherwise per-step messages accumulate and
`valid = (errors == [])`. -/
def validate_pipeline_config (steps : JVal) : Except String (Bool × List String) :=
  match steps with
  | .vlist xs => do
    let errs ← validate_steps 0 xs
    pure (errs.isEmpty, errs)
  | _ => pure (false, ["Pipeline must be a list of steps"])

/-! ## Pipeline executor (`pipeline.py`, `PipelineExecutor.execute`) -/

/-- A built `PipelineStep` (`pipeline.py` lines 17–22, 81–89): the three
fields extracted with `.get` and their defaults.  `op` and `params` keep
their dynamic type — the source never checks them while building. -/
structure StepCfg where
  op : JVal
  params : JVal
  enabled : JVal

/-- The list comprehension of `execute` lines 81–89: each element's
`s.get(...)` calls raise `AttributeError` on a non-dict element; a step is
kept when `s.get("enabled", True)` is truthy. -/
def buildActiveSteps : List JVal → Except String (List StepCfg)
  | [] => .ok []
  | s :: rest => do
    let en ← jGet s "enabled" (.vbool true)
    let op ← jGet s "op" (.vstr "")
    let ps ← jGet s "params" (.vdict [])
    let tail ← buildActiveSteps rest
    if truthy en then
      pure (⟨op, ps, en⟩ :: tail)
    else
      pure tail

/-- `_adjust_params_for_preview` (`pipeline.py` lines 187–206) on the
copied parameter dict: only a `denoise` step whose params explicitly hold
`method == "nlm"` is rewritten to `method = "bilateral"`,
`strength = min(strength, 10)` (`strength` defaulting to 10).  Python's
`min` raises `TypeError` when the stored strength does not compare with
an int. -/
def adjust_params_for_preview (op_name : String) (params : List (String × JVal)) :
    Except String (List (String × JVal)) :=
  if op_name = "denoise" then
    let isNlm : Bool := match assocGet params "method" with
      | some (.vstr s) => s = "nlm"
      | _ => false
    if isNlm then do
      let p1 := assocSet params "method" (.vstr "bilateral")
      let strength := (assocGet p1 "strength").getD (.vnum 10)
      match strength with
      | .vnum q => pure (assocSet p1 "strength" (.vnum (min q 10)))
      | .vbool b => pure (assocSet p1 "strength" (.vnum (min (if b then 1 else 0) 10)))
      | _ => .error "TypeError: min argument not comparable"
    else
      pure params
  else
    pure params

/-- The parameters actually handed to the operation (`execute` lines
141–143): `step.params.copy()` (an `AttributeError` on scalars), then the
preview adjustment when `preview_mode` is set (whose `.get` raises on a
non-dict copy). -/
def effective_params (preview : Bool) (op_name : String) (params : JVal) :
    Except String JVal :=
  match params with
  | .vdict kvs =>
    if preview then (adjust_params_for_preview op_name kvs).map .vdict
    else pure (.vdict kvs)
  | .vlist xs =>
    if preview then .error "AttributeError: object has no attribute get"
    else pure (.vlist xs)
  | _ => .error "AttributeError: object has no attribute copy"

/-- An entry of the executor's `errors` list (`pipeline.py` lines 113–117,
154–159; the traceback field is dropped, the message is kept). -/
structure ErrInfo where
  step : JVal
  index : ℕ
  error : String

/-- A step record of the aggregator summary (`progress.py` lines 163–170:
`step`, `success`, `error`; wall-clock durations are not modelled).
`step_started` appends the record and `step_completed` fills the outcome;
the two are fused here since no read happens between them. -/
structure StepRec where
  step : JVal
  success : Option Bool
  error : Option String

/-- `ProgressAggregator.get_summary` (`progress.py` lines 155–173) without
the wall-clock fields: the ordered step records and the last observed
overall percent (`current_percent`, 0 when no event arrived). -/
structure Summary where
  steps : List StepRec
  final_percent : ℚ

/-- `PipelineResult` (`pipeline.py` lines 25–31). -/
structure PipelineResult (I : Type) where
  success : Bool
  image : I
  progress_info : Summary
  errors : List ErrInfo

/-- The registered operations' behaviour, abstracting the cv2 bodies: for
an operation name, an input buffer and the (adjusted) parameters, the
fractions it reports through the progress callback in order, and either
the output buffer or the message of the exception it raises. -/
def Impl (I : Type) : Type :=
  String → I → JVal → List ℚ × Except String I

/-- State accumulated by the loop of `execute` (lines 100–171): working
image, error list, aggregator step records, the emitted overall percents
in order, and whether the strict mode returned early. -/
structure RunState (I : Type) where
  image : I
  errors : List ErrInfo
  records : List StepRec
  trace : List ℚ
  halted : Bool

/-- The `for i, step in enumerate(active_steps)` loop of `execute`
(`pipeline.py` lines 103–171), one branch per source branch: unknown
operation (lines 112–129), exception inside the `try` — parameter
copy/preview adjustment or the operation itself (lines 139–170) — and
success (lines 146–148).  An `Except.error` is an uncaught exception
(only the dict lookup on an unhashable `op` value causes one here). -/
def runSteps {I : Type} (impl : Impl I) (cont preview : Bool) (n : ℕ) :
    ℕ → I → List StepCfg → List ErrInfo → List StepRec → List ℚ →
    Except String (RunState I)
  | _, cur, [], errors, records, trace => .ok ⟨cur, errors, records, trace, false⟩
  | i, cur, step :: rest, errors, records, trace =>
    match opLookup step.op with
    | .error e => .error e
    | .ok none =>
      let msg := "Unknown operation: " ++ jRepr step.op
      let errors2 := errors ++ [⟨step.op, i, msg⟩]
      let records2 := records ++ [⟨step.op, some false, some msg⟩]
      if cont then
        runSteps impl cont preview n (i + 1) cur rest errors2 records2 trace
      else
        .ok ⟨cur, errors2, records2, trace, true⟩
    | .ok (some name) =>
      match effective_params preview name step.params with
      | .error msg =>
        let errors2 := errors ++ [⟨step.op, i, msg⟩]
        let records2 := records ++ [⟨step.op, some false, some msg⟩]
        if cont then
          runSteps impl cont preview n (i + 1) cur rest errors2 records2 trace
        else
          .ok ⟨cur, errors2, records2, trace, true⟩
      | .ok ps =>
        let reports := (impl name cur ps).1
        let trace2 := trace ++ reports.map (fun r => emitted_percent (i : ℤ) r n)
        match (impl name cur ps).2 with
        | .ok img2 =>
          runSteps impl cont preview n (i + 1) img2 rest errors
            (records ++ [⟨step.op, some true, none⟩]) trace2
        | .error msg =>
          let errors2 := errors ++ [⟨step.op, i, msg⟩]
          let records2 := records ++ [⟨step.op, some false, some msg⟩]
          if cont then
            runSteps impl cont preview n (i + 1) cur rest errors2 records2 trace2
          else
            .ok ⟨cur, errors2, records2, trace2, true⟩

/-- Assemble the summary carried by a `PipelineResult`. -/
def mkSummary (records : List StepRec) (trace : List ℚ) : Summary :=
  ⟨records, (trace.getLast?).getD 0⟩

/-- `PipelineExecutor.execute` (`pipeline.py` lines 61–179): build the
active steps, short-circuit on an empty list (lines 91–97), otherwise run
the loop on a copy of the input (the copy is the identity on the abstract
buffer) and assemble the result: the early returns carry `success=False`
(lines 123–128, 165–170), the final one `success = (errors == [])`
(lines 174–179). -/
def execute {I : Type} (impl : Impl I) (cont : Bool) (image : I)
    (steps : List JVal) (preview : Bool) : Except String (PipelineResult I) := do
  let active ← buildActiveSteps steps
  if active.isEmpty then
    pure ⟨true, image, mkSummary [] [], []⟩
  else
    let st ← runSteps impl cont preview active.length 0 image active [] [] []
    if st.halted then
      pure ⟨false, st.image, mkSummary st.records st.trace, st.errors⟩
    else
      pure ⟨st.errors.isEmpty, st.image, mkSummary st.records st.trace, st.errors⟩

/-! ## Characterizations of a single step, used to state the claims -/

/-- What processing one step does to the working image: the unknown-name
branch and the caught-exception branch both count as an error, success
yields the operation's output.  (An unhashable `op` value is excluded by
the `hashableOp` hypothesis wherever this is used, since the source
raises there instead.) -/
def stepOutcome {I : Type} (impl : Impl I) (preview : Bool) (s : StepCfg)
    (img : I) : Except String I :=
  match opLookup s.op with
  | .error e => .error e
  | .ok none => .error ("Unknown operation: " ++ jRepr s.op)
  | .ok (some name) =>
    match effective_params preview name s.params with
    | .error msg => .error msg
    | .ok ps => (impl name img ps).2

/-- The fractions a step reports: nothing for an unknown operation or a
parameter failure (no callback is created / the exception precedes the
call), the implementation's reports otherwise. -/
def stepReports {I : Type} (impl : Impl I) (preview : Bool) (s : StepCfg)
    (img : I) : List ℚ :=
  match opLookup s.op with
  | .ok (some name) =>
    match effective_params preview name s.params with
    | .ok ps => (impl name img ps).1
    | .error _ => []
  | _ => []

/-- The step's `op` value hashes (is not a list or dict), so the registry
lookup returns instead of raising. -/
def hashableOp (s : StepCfg) : Prop :=
  ∃ o, opLookup s.op = .ok o

/-- The step succeeds on every input image (registered name, preview
adjustment applies, implementation returns normally). -/
def stepAlwaysOk {I : Type} (impl : Impl I) (preview : Bool) (s : StepCfg) : Prop :=
  ∀ img, ∃ img2, stepOutcome impl preview s img = .ok img2

/-- The image after a list of steps when every one of them succeeds; a
failing step is a pass-through (the executor keeps `current_image`). -/
def chainImage {I : Type} (impl : Impl I) (preview : Bool) :
    I → List StepCfg → I
  | img, [] => img
  | img, s :: rest =>
    match stepOutcome impl preview s img with
    | .ok img2 => chainImage impl preview img2 rest
    | .error _ => chainImage impl preview img rest

/-- Reference run in lenient mode (`continue_on_error=True`): every step
processed, per failing step exactly one error entry and one failed
record, the image threaded through successes only.  Returns
(image, errors, records, trace). -/
def lenientRun {I : Type} (impl : Impl I) (preview : Bool) (n : ℕ) :
    ℕ → I → List StepCfg → I × List ErrInfo × List StepRec × List ℚ
  | _, img, [] => (img, [], [], [])
  | i, img, s :: rest =>
    let tr := (stepReports impl preview s img).map (fun r => emitted_percent (i : ℤ) r n)
    match stepOutcome impl preview s img with
    | .ok img2 =>
      let R := lenientRun impl preview n (i + 1) img2 rest
      (R.1, R.2.1, ⟨s.op, some true, none⟩ :: R.2.2.1, tr ++ R.2.2.2)
    | .error msg =>
      let R := lenientRun impl preview n (i + 1) img rest
      (R.1, ⟨s.op, i, msg⟩ :: R.2.1, ⟨s.op, some false, some msg⟩ :: R.2.2.1,
        tr ++ R.2.2.2)

/-- The denoise method `denoise_image` resolves from its params
(`operations.py` line 279): `params.get("method", "nlm")`. -/
def denoiseMethod (params : List (String × JVal)) : JVal :=
  (assocGet params "method").getD (.vstr "nlm")

/-- The sequence of `ProgressInfo.percent` values handed to the caller's
`on_progress` callback over a whole `execute` run, in emission order
(each event flows through `_handle_step_progress`, which also updates the
aggregator's `current_percent`). -/
def executeTrace {I : Type} (impl : Impl I) (cont : Bool) (image : I)
    (steps : List JVal) (preview : Bool) : Except String (List ℚ) := do
  let active ← buildActiveSteps steps
  if active.isEmpty then
    pure []
  else
    let st ← runSteps impl cont preview active.length 0 image active [] [] []
    pure st.trace

/-- The reporting discipline every registered operation in
`operations.py` follows: fractions lie in [0,1], are non-decreasing
within one invocation, and a normal return is preceded by a final
`progress(1.0, ...)` call. -/
def GoodReporter {I : Type} (impl : Impl I) : Prop :=
  ∀ name img ps,
    (∀ r ∈ (impl name img ps).1, 0 ≤ r ∧ r ≤ 1) ∧
    List.Chain' (· ≤ ·) (impl name img ps).1 ∧
    (∀ img2, (impl name img ps).2 = Except.ok img2 →
      (impl name img ps).1.getLast? = some 1)

/-- Concrete implementation map used by the witnesses: every operation
reports the single fraction 1 and succeeds; "grayscale" increments the
(numeric stand-in) image so that applications are observable. -/
def implW : Impl ℕ := fun name img _ =>
  if name = "grayscale" then ([1], .ok (img + 1)) else ([1], .ok img)

/-! ## Helper lemmas -/

/-- Unfolding `pure` of the `Except` monad. -/
lemma pure_eq_ok {α : Type} (a : α) : (pure a : Except String α) = .ok a := rfl

/-- Setting one key leaves every other key's binding unchanged. -/
lemma assocGet_assocSet_ne (kvs : List (String × JVal)) (k k' : String)
    (v : JVal) (h : k' ≠ k) : assocGet (assocSet kvs k v) k' = assocGet kvs k' := by
  induction kvs with
  | nil => simp [assocSet, assocGet, h, Ne.symm h]
  | cons kv rest ih =>
    by_cases hkv : kv.1 = k
    · simp [assocSet, assocGet, hkv, Ne.symm h]
    · by_cases hkv' : kv.1 = k'
      · simp [assocSet, assocGet, hkv, hkv', h]
      · simp [assocSet, assocGet, hkv, hkv', ih]

/-- Unfolding `>>=` of the `Except` monad on `.ok`. -/
lemma ok_bind {α β : Type} (a : α) (f : α → Except String β) :
    (Except.ok a >>= f : Except String β) = f a := rfl

/-- Unfolding `>>=` of the `Except` monad on `.error`. -/
lemma error_bind {α β : Type} (e : String) (f : α → Except String β) :
    (Except.error e >>= f : Except String β) = Except.error e := rfl

/-- A step list containing a non-dict element makes the step-building
comprehension raise: the element's `.get` has no receiver. -/
lemma buildActiveSteps_error_of_non_dict (steps : List JVal) (v : JVal)
    (hv : v ∈ steps) (hd : v.isDict = false) :
    ∃ e, buildActiveSteps steps = .error e := by
  induction steps with
  | nil => cases hv
  | cons s rest ih =>
    rcases List.mem_cons.mp hv with h | h
    · subst h
      cases v <;> simp_all [buildActiveSteps, jGet, JVal.isDict, ok_bind, error_bind]
    · cases s with
      | vdict kvs =>
        rcases ih h with ⟨e, he⟩
        refine ⟨e, ?_⟩
        simp [buildActiveSteps, jGet, he, ok_bind, error_bind]
      | vnull => exact ⟨_, rfl⟩
      | vbool b => exact ⟨_, rfl⟩
      | vnum q => exact ⟨_, rfl⟩
      | vstr t => exact ⟨_, rfl⟩
      | vlist xs => exact ⟨_, rfl⟩

/-- Loop invariant of `execute`: the run appends to the incoming error
list and record list; the new error list is empty exactly when every new
record is a success; an early (strict-mode) halt always carries at least
one new error. -/
lemma runSteps_errors_records {I : Type} (impl : Impl I) (cont preview : Bool)
    (n : ℕ) :
    ∀ (steps : List StepCfg) (i : ℕ) (cur : I) (errors : List ErrInfo)
      (records : List StepRec) (trace : List ℚ) (st : RunState I),
      runSteps impl cont preview n i cur steps errors records trace = .ok st →
      ∃ errs2 recs2,
        st.errors = errors ++ errs2 ∧
        st.records = records ++ recs2 ∧
        (errs2 = [] ↔ ∀ r ∈ recs2, r.success = some true) ∧
        (st.halted = true → errs2 ≠ []) := by
  intro steps
  induction steps with
  | nil =>
    intro i cur errors records trace st h
    rw [runSteps] at h
    cases h
    exact ⟨[], [], by simp, by simp, by simp, by simp⟩
  | cons s rest ih =>
    intro i cur errors records trace st h
    rw [runSteps] at h
    split at h
    · cases h
    · -- unknown operation
      split at h
      · rcases ih _ _ _ _ _ _ h with ⟨e2, r2, hE, hR, hIff, hH⟩
        exact ⟨⟨s.op, i, "Unknown operation: " ++ jRepr s.op⟩ :: e2,
          ⟨s.op, some false, some ("Unknown operation: " ++ jRepr s.op)⟩ :: r2,
          by rw [hE]; simp, by rw [hR]; simp, by simp, by simp⟩
      · cases h
        exact ⟨[⟨s.op, i, "Unknown operation: " ++ jRepr s.op⟩],
          [⟨s.op, some false, some ("Unknown operation: " ++ jRepr s.op)⟩],
          rfl, rfl, by simp, by simp⟩
    · -- registered name: split on the parameter processing
      rename_i name heq
      split at h
      · -- parameter copy / preview adjustment raised
        rename_i msg hep
        split at h
        · rcases ih _ _ _ _ _ _ h with ⟨e2, r2, hE, hR, hIff, hH⟩
          exact ⟨⟨s.op, i, msg⟩ :: e2, ⟨s.op, some false, some msg⟩ :: r2,
            by rw [hE]; simp, by rw [hR]; simp, by simp, by simp⟩
        · cases h
          exact ⟨[⟨s.op, i, msg⟩], [⟨s.op, some false, some msg⟩],
            rfl, rfl, by simp, by simp⟩
      · -- parameters fine: split on the operation outcome
        rename_i ps hep
        split at h
        · -- operation succeeded
          rcases ih _ _ _ _ _ _ h with ⟨e2, r2, hE, hR, hIff, hH⟩
          exact ⟨e2, ⟨s.op, some true, none⟩ :: r2,
            hE, by rw [hR]; simp, by simp [hIff], hH⟩
        · -- operation raised
          rename_i msg hout
          split at h
          · rcases ih _ _ _ _ _ _ h with ⟨e2, r2, hE, hR, hIff, hH⟩
            exact ⟨⟨s.op, i, msg⟩ :: e2, ⟨s.op, some false, some msg⟩ :: r2,
              by rw [hE]; simp, by rw [hR]; simp, by simp, by simp⟩
          · cases h
            exact ⟨[⟨s.op, i, msg⟩], [⟨s.op, some false, some msg⟩],
              rfl, rfl, by simp, by simp⟩

/-- Running a prefix of steps that all succeed threads the image through
them, appends one success record each, emits some trace, and leaves the
error list untouched. -/
lemma runSteps_good_prefix {I : Type} (impl : Impl I) (cont preview : Bool)
    (n : ℕ) :
    ∀ (good rest : List StepCfg) (i : ℕ) (cur : I) (errors : List ErrInfo)
      (records : List StepRec) (trace : List ℚ),
      (∀ s ∈ good, stepAlwaysOk impl preview s) →
      ∃ tr, runSteps impl cont preview n i cur (good ++ rest) errors records trace =
        runSteps impl cont preview n (i + good.length)
          (chainImage impl preview cur good) rest errors
          (records ++ good.map (fun s => ⟨s.op, some true, none⟩)) (trace ++ tr) := by
  intro good
  induction good with
  | nil =>
    intro rest i cur errors records trace _
    exact ⟨[], by simp [chainImage]⟩
  | cons s g ih =>
    intro rest i cur errors records trace hgood
    rcases hgood s (List.mem_cons_self s g) cur with ⟨img2, hout0⟩
    have hout := hout0
    unfold stepOutcome at hout
    cases hop : opLookup s.op with
    | error e => rw [hop] at hout; cases hout
    | ok o =>
      rw [hop] at hout
      cases o with
      | none => cases hout
      | some name =>
        dsimp only at hout
        cases hep : effective_params preview name s.params with
        | error msg => rw [hep] at hout; cases hout
        | ok ps =>
          rw [hep] at hout
          dsimp only at hout
          rcases ih rest (i + 1) img2 errors
              (records ++ [⟨s.op, some true, none⟩])
              (trace ++ (impl name cur ps).1.map (fun r => emitted_percent (i:ℤ) r n))
              (fun t ht => hgood t (List.mem_cons_of_mem s ht)) with ⟨tr, htr⟩
          refine ⟨(impl name cur ps).1.map (fun r => emitted_percent (i:ℤ) r n) ++ tr, ?_⟩
          have hchain : chainImage impl preview cur (s :: g) =
              chainImage impl preview img2 g := by
            rw [chainImage, hout0]
          rw [List.cons_append, runSteps, hop]
          dsimp only
          rw [hep]
          dsimp only
          rw [hout]
          dsimp only
          rw [htr, hchain]
          have h1 : i + (s :: g).length = (i + 1) + g.length := by
            simp [List.length_cons]
            omega
          rw [h1, List.map_cons]
          have h2 : records ++ (⟨s.op, some true, none⟩ : StepRec) ::
              g.map (fun s => ⟨s.op, some true, none⟩) =
              (records ++ [⟨s.op, some true, none⟩]) ++
                g.map (fun s => ⟨s.op, some true, none⟩) := by
            simp
          rw [h2, List.append_assoc trace]

/-- In strict mode (`continue_on_error=False`) a failing step halts the
run with exactly one new error entry, one new failed record, the working
image unchanged, and the halted flag set. -/
lemma runSteps_fail_halts {I : Type} (impl : Impl I) (preview : Bool) (n : ℕ)
    (i : ℕ) (cur : I) (s : StepCfg) (rest : List StepCfg)
    (errors : List ErrInfo) (records : List StepRec) (trace : List ℚ)
    (hhash : hashableOp s)
    (hfail : ∀ img2, stepOutcome impl preview s cur ≠ .ok img2) :
    ∃ msg tr, runSteps impl false preview n i cur (s :: rest) errors records trace =
      .ok ⟨cur, errors ++ [⟨s.op, i, msg⟩],
           records ++ [⟨s.op, some false, some msg⟩], trace ++ tr, true⟩ := by
  rcases hhash with ⟨o, hop⟩
  cases o with
  | none =>
    refine ⟨"Unknown operation: " ++ jRepr s.op, [], ?_⟩
    rw [runSteps, hop]
    simp
  | some name =>
    cases hep : effective_params preview name s.params with
    | error msg =>
      refine ⟨msg, [], ?_⟩
      rw [runSteps, hop]
      dsimp only
      rw [hep]
      simp
    | ok ps =>
      cases hout : (impl name cur ps).2 with
      | ok img2 =>
        exfalso
        apply hfail img2
        unfold stepOutcome
        rw [hop]
        dsimp only
        rw [hep]
        exact hout
      | error msg =>
        refine ⟨msg, (impl name cur ps).1.map (fun r => emitted_percent (i:ℤ) r n), ?_⟩
        rw [runSteps, hop]
        dsimp only
        rw [hep]
        dsimp only
        rw [hout]
        simp

/-- In lenient mode (`continue_on_error=True`) the loop never halts early
and is fully described by `lenientRun`, provided no step has an
unhashable `op` (which would raise out of the loop instead). -/
lemma runSteps_lenient {I : Type} (impl : Impl I) (preview : Bool) (n : ℕ) :
    ∀ (steps : List StepCfg) (i : ℕ) (cur : I) (errors : List ErrInfo)
      (records : List StepRec) (trace : List ℚ),
      (∀ s ∈ steps, hashableOp s) →
      runSteps impl true preview n i cur steps errors records trace =
        .ok ⟨(lenientRun impl preview n i cur steps).1,
             errors ++ (lenientRun impl preview n i cur steps).2.1,
             records ++ (lenientRun impl preview n i cur steps).2.2.1,
             trace ++ (lenientRun impl preview n i cur steps).2.2.2,
             false⟩ := by
  intro steps
  induction steps with
  | nil =>
    intro i cur errors records trace _
    rw [runSteps, lenientRun]
    simp
  | cons s rest ih =>
    intro i cur errors records trace hh
    rcases hh s (List.mem_cons_self s rest) with ⟨o, hop⟩
    have hrest : ∀ t ∈ rest, hashableOp t :=
      fun t ht => hh t (List.mem_cons_of_mem s ht)
    cases o with
    | none =>
      have hso : stepOutcome impl preview s cur =
          .error ("Unknown operation: " ++ jRepr s.op) := by
        unfold stepOutcome
        rw [hop]
      have hsr : stepReports impl preview s cur = [] := by
        unfold stepReports
        rw [hop]
      rw [runSteps, hop]
      dsimp only
      rw [if_pos rfl, ih _ _ _ _ _ hrest, lenientRun, hso, hsr]
      dsimp only
      simp [List.append_assoc]
    | some name =>
      cases hep : effective_params preview name s.params with
      | error msg =>
        have hso : stepOutcome impl preview s cur = .error msg := by
          unfold stepOutcome
          rw [hop]
          dsimp only
          rw [hep]
        have hsr : stepReports impl preview s cur = [] := by
          unfold stepReports
          rw [hop]
          dsimp only
          rw [hep]
        rw [runSteps, hop]
        dsimp only
        rw [hep]
        dsimp only
        rw [if_pos rfl, ih _ _ _ _ _ hrest, lenientRun, hso, hsr]
        dsimp only
        simp [List.append_assoc]
      | ok ps =>
        have hsr : stepReports impl preview s cur = (impl name cur ps).1 := by
          unfold stepReports
          rw [hop]
          dsimp only
          rw [hep]
        cases hout : (impl name cur ps).2 with
        | ok img2 =>
          have hso : stepOutcome impl preview s cur = .ok img2 := by
            unfold stepOutcome
            rw [hop]
            dsimp only
            rw [hep]
            exact hout
          rw [runSteps, hop]
          dsimp only
          rw [hep]
          dsimp only
          rw [hout]
          dsimp only
          rw [ih _ _ _ _ _ hrest, lenientRun, hso, hsr]
          dsimp only
          simp [List.append_assoc]
        | error msg =>
          have hso : stepOutcome impl preview s cur = .error msg := by
            unfold stepOutcome
            rw [hop]
            dsimp only
            rw [hep]
            exact hout
          rw [runSteps, hop]
          dsimp only
          rw [hep]
          dsimp only
          rw [hout]
          dsimp only
          rw [if_pos rfl, ih _ _ _ _ _ hrest, lenientRun, hso, hsr]
          dsimp only
          simp [List.append_assoc]

/-- The reference lenient run records every step, and carries exactly one
error entry per failed record; its image is the failure-pass-through
chain. -/
lemma lenientRun_counts {I : Type} (impl : Impl I) (preview : Bool) (n : ℕ) :
    ∀ (steps : List StepCfg) (i : ℕ) (cur : I),
      (lenientRun impl preview n i cur steps).2.2.1.length = steps.length ∧
      (lenientRun impl preview n i cur steps).2.1.length =
        List.countP (fun r => r.success == some false)
          (lenientRun impl preview n i cur steps).2.2.1 ∧
      (lenientRun impl preview n i cur steps).1 =
        chainImage impl preview cur steps := by
  intro steps
  induction steps with
  | nil =>
    intro i cur
    rw [lenientRun]
    simp [chainImage]
  | cons s rest ih =>
    intro i cur
    rw [lenientRun]
    cases hso : stepOutcome impl preview s cur with
    | ok img2 =>
      dsimp only
      rcases ih (i + 1) img2 with ⟨h1, h2, h3⟩
      refine ⟨by simp [h1], ?_, by rw [chainImage, hso]; exact h3⟩
      rw [List.countP_cons]
      simp [h2]
    | error msg =>
      dsimp only
      rcases ih (i + 1) cur with ⟨h1, h2, h3⟩
      refine ⟨by simp [h1], ?_, by rw [chainImage, hso]; exact h3⟩
      rw [List.countP_cons]
      simp [h2]

/-- Each step's contribution is nonnegative in either branch of the
zero-guard. -/
lemma step_contribution_nonneg (n : ℕ) : 0 ≤ step_contribution n := by
  unfold step_contribution
  split
  · positivity
  · norm_num

/-- The emitted percent is monotone in the unclamped sum
`step_index + fraction`. -/
lemma emitted_percent_mono (n : ℕ) {i j : ℤ} {p q : ℚ}
    (h : (i:ℚ) + p ≤ (j:ℚ) + q) :
    emitted_percent i p n ≤ emitted_percent j q n := by
  unfold emitted_percent overall_percent
  have hc : (0:ℚ) ≤ step_contribution n * 100 :=
    mul_nonneg (step_contribution_nonneg n) (by norm_num)
  have h2 : ((i:ℤ):ℚ) + p ≤ ((j:ℤ):ℚ) + q := h
  have h3 : (((i:ℤ):ℚ) + p) * step_contribution n * 100 ≤
      (((j:ℤ):ℚ) + q) * step_contribution n * 100 := by
    rw [mul_assoc, mul_assoc]
    exact mul_le_mul_of_nonneg_right h2 hc
  exact min_le_min le_rfl (max_le_max le_rfl h3)

/-- A step that reports fraction 1 at index n−1 of n emits exactly 100. -/
lemma emitted_percent_full (i n : ℕ) (h : i + 1 = n) :
    emitted_percent (i:ℤ) 1 n = 100 := by
  unfold emitted_percent overall_percent step_contribution
  have hn : 0 < n := by omega
  rw [if_pos hn]
  have hi : (((i:ℕ):ℤ):ℚ) + 1 = (n:ℚ) := by
    push_cast
    have : ((i:ℚ) + 1) = ((i + 1 : ℕ) : ℚ) := by push_cast; ring
    rw [this, h]
  rw [hi]
  have hn0 : (n:ℚ) ≠ 0 := by positivity
  have : (n:ℚ) * (1 / (n:ℚ)) * 100 = 100 := by field_simp
  rw [this]
  norm_num

/-- Every trace the executor accumulates is non-decreasing, provided the
operations report non-decreasing fractions in [0,1]: events of one step
stay between that step's floor and the next step's floor, and the floors
grow with the step index. -/
lemma runSteps_trace_chain {I : Type} (impl : Impl I) (cont preview : Bool)
    (n : ℕ) (hg : GoodReporter impl) :
    ∀ (steps : List StepCfg) (i : ℕ) (cur : I) (errors : List ErrInfo)
      (records : List StepRec) (trace : List ℚ) (st : RunState I),
      List.Chain' (· ≤ ·) trace →
      (∀ x ∈ trace, x ≤ emitted_percent (i:ℤ) 0 n) →
      runSteps impl cont preview n i cur steps errors records trace = .ok st →
      List.Chain' (· ≤ ·) st.trace := by
  intro steps
  induction steps with
  | nil =>
    intro i cur errors records trace st hch hbd h
    rw [runSteps] at h
    cases h
    exact hch
  | cons s rest ih =>
    intro i cur errors records trace st hch hbd h
    have hstep : ∀ x ∈ trace, x ≤ emitted_percent ((i+1 : ℕ):ℤ) 0 n := by
      intro x hx
      exact (hbd x hx).trans (emitted_percent_mono n (by push_cast; linarith))
    rw [runSteps] at h
    split at h
    · cases h
    · split at h
      · exact ih _ _ _ _ _ _ hch hstep h
      · cases h
        exact hch
    · rename_i name heq
      split at h
      · split at h
        · exact ih _ _ _ _ _ _ hch hstep h
        · cases h
          exact hch
      · rename_i ps hep
        rcases hg name cur ps with ⟨hbounds, hchain, _⟩
        have hmap : List.Chain' (· ≤ ·)
            ((impl name cur ps).1.map (fun r => emitted_percent (i:ℤ) r n)) := by
          exact List.chain'_map_of_chain' _
            (fun a b hab => emitted_percent_mono n (by linarith)) hchain
        have happ : List.Chain' (· ≤ ·)
            (trace ++ (impl name cur ps).1.map (fun r => emitted_percent (i:ℤ) r n)) := by
          refine hch.append hmap ?_
          intro x hx y hy
          have hx2 : x ≤ emitted_percent (i:ℤ) 0 n :=
            hbd x (List.mem_of_mem_getLast? hx)
          have hy2 : y ∈ (impl name cur ps).1.map (fun r => emitted_percent (i:ℤ) r n) :=
            List.mem_of_mem_head? hy
          rcases List.mem_map.mp hy2 with ⟨r, hr, hyr⟩
          have h0r : 0 ≤ r := (hbounds r hr).1
          have : emitted_percent (i:ℤ) 0 n ≤ emitted_percent (i:ℤ) r n :=
            emitted_percent_mono n (by linarith)
          rw [← hyr] at *
          linarith
        have hbnd2 : ∀ x ∈ trace ++ (impl name cur ps).1.map
            (fun r => emitted_percent (i:ℤ) r n),
            x ≤ emitted_percent ((i+1 : ℕ):ℤ) 0 n := by
          intro x hx
          rcases List.mem_append.mp hx with hx | hx
          · exact hstep x hx
          · rcases List.mem_map.mp hx with ⟨r, hr, hxr⟩
            have hr1 : r ≤ 1 := (hbounds r hr).2
            rw [← hxr]
            exact emitted_percent_mono n (by push_cast; linarith)
        split at h
        · exact ih _ _ _ _ _ _ happ hbnd2 h
        · split at h
          · exact ih _ _ _ _ _ _ happ hbnd2 h
          · cases h
            exact happ

/-- If the lenient run reaches a final step that executes a registered
operation and succeeds, the very last emitted percent is exactly 100. -/
lemma runSteps_trace_last {I : Type} (impl : Impl I) (preview : Bool)
    (n : ℕ) (hg : GoodReporter impl) :
    ∀ (steps : List StepCfg) (s : StepCfg) (i : ℕ) (cur : I)
      (errors : List ErrInfo) (records : List StepRec) (trace : List ℚ)
      (st : RunState I),
      i + steps.length = n →
      steps.getLast? = some s →
      stepAlwaysOk impl preview s →
      runSteps impl true preview n i cur steps errors records trace = .ok st →
      st.trace.getLast? = some 100 := by
  intro steps
  induction steps with
  | nil =>
    intro s i cur errors records trace st _ hlast _ _
    cases hlast
  | cons s0 rest ih =>
    intro s i cur errors records trace st hn hlast hak h
    cases rest with
    | nil =>
      have hs : s = s0 := by
        cases hlast
        rfl
      subst hs
      rcases hak cur with ⟨img2, hout0⟩
      have hout := hout0
      unfold stepOutcome at hout
      cases hop : opLookup s.op with
      | error e => rw [hop] at hout; cases hout
      | ok o =>
        rw [hop] at hout
        cases o with
        | none => cases hout
        | some name =>
          dsimp only at hout
          cases hep : effective_params preview name s.params with
          | error msg => rw [hep] at hout; cases hout
          | ok ps =>
            rw [hep] at hout
            dsimp only at hout
            rw [runSteps, hop] at h
            dsimp only at h
            rw [hep] at h
            dsimp only at h
            rw [hout] at h
            dsimp only at h
            rw [runSteps] at h
            cases h
            rcases hg name cur ps with ⟨_, _, hlast1⟩
            have hrep := hlast1 img2 hout
            have hmap : ((impl name cur ps).1.map
                (fun r => emitted_percent (i:ℤ) r n)).getLast? =
                some (emitted_percent (i:ℤ) 1 n) := by
              rw [List.getLast?_map, hrep]
              rfl
            have hne : (impl name cur ps).1.map
                (fun r => emitted_percent (i:ℤ) r n) ≠ [] := by
              intro hcon
              rw [hcon] at hmap
              cases hmap
            show (trace ++ (impl name cur ps).1.map
                (fun r => emitted_percent (i:ℤ) r n)).getLast? = some 100
            rw [List.getLast?_append_of_ne_nil _ hne, hmap,
              emitted_percent_full i n (by simpa using hn)]
    | cons s1 rest' =>
      have hlast2 : (s1 :: rest').getLast? = some s := by
        rw [← hlast]
        rfl
      have hn2 : (i + 1) + (s1 :: rest').length = n := by
        simp only [List.length_cons] at hn ⊢
        omega
      rw [runSteps] at h
      split at h
      · cases h
      · rw [if_pos rfl] at h
        exact ih s (i+1) _ _ _ _ _ hn2 hlast2 hak h
      · split at h
        · rw [if_pos rfl] at h
          exact ih s (i+1) _ _ _ _ _ hn2 hlast2 hak h
        · split at h
          · exact ih s (i+1) _ _ _ _ _ hn2 hlast2 hak h
          · rw [if_pos rfl] at h
            exact ih s (i+1) _ _ _ _ _ hn2 hlast2 hak h

/-! ## Theorems -/

/-- C9: for every step index, every fraction (also out of [0,1]) and every
total step count (also 0), the percent stored in the emitted ProgressInfo
lies in [0,100], and a zero total contributes 1.0 per step instead of
dividing by zero. -/
theorem progress_percent_always_in_range (step_index : ℤ) (percent : ℚ)
    (total_steps : ℕ) :
    0 ≤ emitted_percent step_index percent total_steps ∧
    emitted_percent step_index percent total_steps ≤ 100 ∧
    step_contribution 0 = 1 := by
  unfold emitted_percent
  exact ⟨le_min (by norm_num) (le_max_left 0 _), min_le_left _ _, rfl⟩

/-- C7 (amended): for a nonnegative sensitivity k and a nonnegative local
mean (box-filtered pixel values are always nonnegative), a larger local
standard deviation never lowers the Sauvola threshold; and the output
pixel is white (255) exactly when the gray value strictly exceeds the
threshold, black (0) otherwise. -/
theorem sauvola_monotone_in_std (mean std std' k : ℚ)
    (hmean : 0 ≤ mean) (hk : 0 ≤ k) (h : std ≤ std') :
    sauvola_T mean std k ≤ sauvola_T mean std' k ∧
    (∀ gray threshold : ℚ,
      (sauvola_pixel gray threshold = 255 ↔ threshold < gray) ∧
      (sauvola_pixel gray threshold = 0 ↔ ¬ threshold < gray)) := by
  constructor
  · unfold sauvola_T
    nlinarith [mul_nonneg (mul_nonneg hmean hk) (sub_nonneg.mpr h)]
  · intro gray threshold
    unfold sauvola_pixel
    constructor <;> split <;> simp_all

/-- C7, witness for the amended theorem at concrete inputs. -/
theorem sauvola_monotone_in_std_witness :
    sauvola_T 100 10 (1/2) ≤ sauvola_T 100 20 (1/2) ∧
    (sauvola_pixel 200 100 = 255 ↔ (100:ℚ) < 200) :=
  ⟨(sauvola_monotone_in_std 100 10 20 (1/2) (by norm_num) (by norm_num)
      (by norm_num)).1,
   ((sauvola_monotone_in_std 100 10 20 (1/2) (by norm_num) (by norm_num)
      (by norm_num)).2 200 100).1⟩

/-- C7, counterexample to the claim as stated: it quantifies over every k,
but for a negative k (the code never clamps or checks k's sign) raising
the standard deviation at constant mean lowers the threshold. -/
theorem sauvola_not_monotone_for_negative_k :
    (0:ℚ) ≤ 128 ∧ ¬ sauvola_T 128 0 (-1) ≤ sauvola_T 128 128 (-1) := by
  unfold sauvola_T
  norm_num

/-- C8 (amended): for a nonnegative maxAngle, the angle deskew uses is the
estimator candidate clamped into [−maxAngle, maxAngle]; below 0.1° in
magnitude the input image is returned unchanged, otherwise the buffer is
warped about the center (w/2, h/2) into the original (w, h) extent. -/
theorem deskew_clamps_and_skips_small_angles {P : Type}
    (contourAngle houghAngle : Option ℚ) (warp : ℚ → ℕ × ℕ → ℕ × ℕ → P → P)
    (maxAngle : ℚ) (img : Img P) (hm : 0 ≤ maxAngle) :
    (-maxAngle ≤ deskew_angle contourAngle houghAngle maxAngle ∧
      deskew_angle contourAngle houghAngle maxAngle ≤ maxAngle) ∧
    (|deskew_angle contourAngle houghAngle maxAngle| < 1/10 →
      deskew_image contourAngle houghAngle warp maxAngle img = img) ∧
    (¬ |deskew_angle contourAngle houghAngle maxAngle| < 1/10 →
      deskew_image contourAngle houghAngle warp maxAngle img =
        ⟨img.h, img.w,
          warp (deskew_angle contourAngle houghAngle maxAngle)
            (img.w / 2, img.h / 2) (img.w, img.h) img.data⟩) := by
  refine ⟨⟨le_max_left _ _, ?_⟩, ?_, ?_⟩
  · unfold deskew_angle
    exact max_le (by linarith) (min_le_left _ _)
  · intro hsmall
    unfold deskew_image
    rw [if_pos hsmall]
  · intro hbig
    unfold deskew_image
    rw [if_neg hbig]

/-- C8, witness: concrete run of the amended theorem (contour estimate 40°,
maxAngle 15 — the applied correction is clamped to 15°, and the warp case
fires since 15 ≥ 0.1). -/
theorem deskew_clamps_witness :
    (-(15:ℚ) ≤ deskew_angle (some 40) none 15 ∧ deskew_angle (some 40) none 15 ≤ 15) ∧
    (¬ |deskew_angle (some 40) none 15| < 1/10 →
      deskew_image (some 40) none (fun _ _ _ d => d) 15 (⟨2, 3, 0⟩ : Img ℕ) =
        ⟨2, 3, (fun (_ : ℚ) (_ : ℕ × ℕ) (_ : ℕ × ℕ) (d : ℕ) => d) (deskew_angle (some 40) none 15) (3 / 2, 2 / 2) (3, 2) 0⟩) :=
  ⟨(deskew_clamps_and_skips_small_angles (some 40) none (fun _ _ _ d => d) 15
      (⟨2, 3, 0⟩ : Img ℕ) (by norm_num)).1,
   (deskew_clamps_and_skips_small_angles (some 40) none (fun _ _ _ d => d) 15
      (⟨2, 3, 0⟩ : Img ℕ) (by norm_num)).2.2⟩

/-- C8, counterexample to the claim as stated: it quantifies over every
maxAngle parameter, but for a negative maxAngle the code's clamp
`max(-max_angle, min(max_angle, angle))` yields −maxAngle, which does not
lie in the (then empty) interval [−maxAngle, maxAngle]. -/
theorem deskew_clamp_fails_for_negative_max :
    ¬ (-(-5:ℚ) ≤ deskew_angle (some 3) (some 3) (-5) ∧
       deskew_angle (some 3) (some 3) (-5) ≤ (-5:ℚ)) := by
  unfold deskew_angle
  norm_num

/-- C5 (amended): in preview mode the only parameter adjustment is for a
denoise step whose params explicitly hold method = "nlm": there method
becomes "bilateral" and strength becomes min(strength, 10) (default 10).
Every other operation, and every denoise step whose stored method is not
the string "nlm" — including one with no stored method at all, which the
operation itself then defaults to nlm — passes through unchanged. -/
theorem preview_substitutes_only_explicit_nlm (op_name : String)
    (params : List (String × JVal)) (q : ℚ) :
    (op_name ≠ "denoise" →
      adjust_params_for_preview op_name params = .ok params) ∧
    ((∀ s, assocGet params "method" = some (.vstr s) → s ≠ "nlm") →
      adjust_params_for_preview op_name params = .ok params) ∧
    ((∀ v, assocGet params "method" = some v → ∀ s, v ≠ .vstr s) →
      adjust_params_for_preview op_name params = .ok params) ∧
    (assocGet params "method" = none →
      adjust_params_for_preview op_name params = .ok params ∧
      denoiseMethod params = .vstr "nlm") ∧
    (assocGet params "method" = some (.vstr "nlm") →
      assocGet params "strength" = some (.vnum q) →
      adjust_params_for_preview "denoise" params =
        .ok (assocSet (assocSet params "method" (.vstr "bilateral"))
              "strength" (.vnum (min q 10))) ∧
      min q 10 ≤ 10) := by
  refine ⟨?_, ?_, ?_, ?_, ?_⟩
  · intro hne
    unfold adjust_params_for_preview
    rw [if_neg hne, pure_eq_ok]
  · intro hs
    rcases hmeth : assocGet params "method" with _ | v
    · simp [adjust_params_for_preview, hmeth, pure_eq_ok]
    · cases v <;> simp_all [adjust_params_for_preview, pure_eq_ok]
  · intro hv
    rcases hmeth : assocGet params "method" with _ | v
    · simp [adjust_params_for_preview, hmeth, pure_eq_ok]
    · cases v <;> simp_all [adjust_params_for_preview, pure_eq_ok]
  · intro hnone
    refine ⟨?_, by simp [denoiseMethod, hnone]⟩
    simp [adjust_params_for_preview, hnone, pure_eq_ok]
  · intro hm hq
    refine ⟨?_, min_le_right q 10⟩
    have hstr : assocGet (assocSet params "method" (.vstr "bilateral")) "strength" =
        assocGet params "strength" :=
      assocGet_assocSet_ne params "method" "strength" _ (by decide)
    simp [adjust_params_for_preview, hm, hstr, hq, pure_eq_ok]

/-- C5, counterexample to the claim as stated: a preview-mode denoise step
whose params store no method at all would use the nlm method (the
operation defaults `method` to "nlm"), yet the preview adjustment — which
only looks for an explicitly stored "nlm" — leaves the params unchanged,
so nlm still runs in preview. -/
theorem preview_misses_default_nlm :
    adjust_params_for_preview "denoise" [] = .ok [] ∧
    denoiseMethod [] = .vstr "nlm" ∧
    (JVal.vstr "nlm" ≠ JVal.vstr "bilateral") := by
  refine ⟨rfl, rfl, by simp⟩

/-- C6 is a code bug: `validate_pipeline_config` is specified to never
raise, but its `op not in OP_REGISTRY` membership test hashes the `op`
value, so a step whose `op` field is a truthy list (or dict) raises an
uncaught `TypeError`.  The remaining behaviours the claim lists do hold:
non-list input, an unknown registered name (with index and name in the
message) and a structurally valid list are all returned gracefully. -/
theorem validate_raises_on_unhashable_op :
    validate_pipeline_config (.vlist [.vdict [("op", .vlist [.vstr "x"])]]) =
      .error "TypeError: unhashable type: list" ∧
    validate_pipeline_config (.vnum 3) =
      .ok (false, ["Pipeline must be a list of steps"]) ∧
    validate_pipeline_config
        (.vlist [.vdict [("op", .vstr "grayscale")],
                 .vdict [("op", .vstr "binarize")]]) =
      .ok (false, ["Step 1: unknown operation 'binarize'"]) ∧
    validate_pipeline_config
        (.vlist [.vdict [("op", .vstr "grayscale"), ("params", .vdict [])],
                 .vdict [("op", .vstr "threshold")]]) =
      .ok (true, []) := by
  refine ⟨rfl, rfl, rfl, rfl⟩

/-- C1: success is true iff the enabled-step list was empty or every
executed step completed without error; and an empty enabled-step list
returns success, the input image itself and a zero-length step-outcome
list. -/
theorem execute_success_iff {I : Type} (impl : Impl I) (cont preview : Bool)
    (img : I) (steps : List JVal) (active : List StepCfg)
    (res : PipelineResult I)
    (hb : buildActiveSteps steps = .ok active)
    (hr : execute impl cont img steps preview = .ok res) :
    (res.success = true ↔
      (active = [] ∨ ∀ r ∈ res.progress_info.steps, r.success = some true)) ∧
    (active = [] →
      res.success = true ∧ res.image = img ∧ res.progress_info.steps = []) := by
  unfold execute at hr
  rw [hb, ok_bind] at hr
  by_cases hA : active.isEmpty
  · rw [if_pos hA] at hr
    cases hr
    have ha : active = [] := List.isEmpty_iff.mp hA
    exact ⟨by simp [ha], fun _ => ⟨rfl, rfl, rfl⟩⟩
  · rw [if_neg hA] at hr
    have hane : active ≠ [] := fun hcon => hA (by simp [hcon])
    cases hrun : runSteps impl cont preview active.length 0 img active [] [] [] with
    | error e => rw [hrun, error_bind] at hr; cases hr
    | ok st =>
      rw [hrun, ok_bind] at hr
      rcases runSteps_errors_records impl cont preview _ _ _ _ _ _ _ _ hrun with
        ⟨e2, r2, hE, hR, hIff, hH⟩
      rw [List.nil_append] at hE hR
      by_cases hh : st.halted = true
      · rw [if_pos hh] at hr
        cases hr
        refine ⟨?_, fun hcon => absurd hcon hane⟩
        simp only [mkSummary]
        constructor
        · intro hfalse; exact absurd hfalse (by simp)
        · intro hOr
          rcases hOr with hcon | hall
          · exact absurd hcon hane
          · exfalso
            apply hH hh
            apply hIff.mpr
            intro r hrmem
            exact hall r (by rw [hR]; exact hrmem)
      · rw [if_neg hh] at hr
        cases hr
        refine ⟨?_, fun hcon => absurd hcon hane⟩
        simp only [mkSummary]
        constructor
        · intro hsuc
          have he2 : e2 = [] := by
            have h0 := List.isEmpty_iff.mp hsuc
            rw [hE] at h0
            exact h0
          right
          intro r hrmem
          refine hIff.mp he2 r ?_
          rw [← hR]
          exact hrmem
        · intro hOr
          rcases hOr with hcon | hall
          · exact absurd hcon hane
          · have he2 : e2 = [] := by
              apply hIff.mpr
              intro r hrm
              exact hall r (by rw [hR]; exact hrm)
            simp [List.isEmpty_iff, hE, he2]

/-- C1, witness: the theorem applied to the empty step list. -/
theorem execute_success_iff_witness :
    ((⟨true, 0, mkSummary [] [], []⟩ : PipelineResult ℕ).success = true ↔
      (([] : List StepCfg) = [] ∨
        ∀ r ∈ (⟨true, (0:ℕ), mkSummary [] [], []⟩ : PipelineResult ℕ).progress_info.steps,
          r.success = some true)) ∧
    (([] : List StepCfg) = [] →
      (⟨true, 0, mkSummary [] [], []⟩ : PipelineResult ℕ).success = true ∧
      (⟨true, 0, mkSummary [] [], []⟩ : PipelineResult ℕ).image = 0 ∧
      (⟨true, 0, mkSummary [] [], []⟩ : PipelineResult ℕ).progress_info.steps = []) :=
  execute_success_iff implW false false 0 [] [] _ rfl rfl

/-- C10: a step-list element that is not a mapping makes `execute` raise
while building the active-step list (its `.get` calls have no receiver),
instead of returning a `PipelineResult` carrying an error entry. -/
theorem execute_raises_on_non_dict_step {I : Type} (impl : Impl I)
    (cont preview : Bool) (img : I) (steps : List JVal) (v : JVal)
    (hv : v ∈ steps) (hd : v.isDict = false) :
    ∃ e, execute impl cont img steps preview = .error e := by
  rcases buildActiveSteps_error_of_non_dict steps v hv hd with ⟨e, he⟩
  refine ⟨e, ?_⟩
  unfold execute
  rw [he, error_bind]

/-- C10, witness: a bare string in the step list. -/
theorem execute_raises_on_non_dict_step_witness :
    (JVal.vstr "x") ∈ [JVal.vstr "x"] ∧
    ∃ e, execute implW false (0:ℕ) [JVal.vstr "x"] false = .error e :=
  ⟨List.mem_singleton.mpr rfl,
   execute_raises_on_non_dict_step implW false false 0 [.vstr "x"] (.vstr "x")
     (List.mem_singleton.mpr rfl) rfl⟩

/-- C2: in strict mode the first failing step (unknown name or raising
operation) halts the pipeline: success is false, the error list has
exactly one entry (at the failing step's index), the image is the one
produced by the successful prefix, and the step-outcome list has
prefix-length + 1 entries — later steps are never started. -/
theorem strict_mode_short_circuit {I : Type} (impl : Impl I) (preview : Bool)
    (img : I) (steps : List JVal) (good : List StepCfg) (bad : StepCfg)
    (rest : List StepCfg)
    (hb : buildActiveSteps steps = .ok (good ++ bad :: rest))
    (hgood : ∀ s ∈ good, stepAlwaysOk impl preview s)
    (hhash : hashableOp bad)
    (hbad : ∀ im img2, stepOutcome impl preview bad im ≠ .ok img2) :
    ∃ res msg, execute impl false img steps preview = .ok res ∧
      res.success = false ∧
      res.errors = [⟨bad.op, good.length, msg⟩] ∧
      res.image = chainImage impl preview img good ∧
      res.progress_info.steps.length = good.length + 1 := by
  rcases runSteps_good_prefix impl false preview (good ++ bad :: rest).length
      good (bad :: rest) 0 img [] [] [] hgood with ⟨tr, htr⟩
  rcases runSteps_fail_halts impl preview (good ++ bad :: rest).length
      (0 + good.length) (chainImage impl preview img good) bad rest []
      (([] : List StepRec) ++ good.map (fun s => ⟨s.op, some true, none⟩))
      (([] : List ℚ) ++ tr) hhash (hbad _) with ⟨msg, tr2, hhalt⟩
  have hne : (good ++ bad :: rest).isEmpty = false := by
    cases good <;> rfl
  refine ⟨⟨false, chainImage impl preview img good,
      mkSummary
        ((([] : List StepRec) ++ good.map (fun s => ⟨s.op, some true, none⟩)) ++
          [⟨bad.op, some false, some msg⟩])
        ((([] : List ℚ) ++ tr) ++ tr2),
      [] ++ [⟨bad.op, 0 + good.length, msg⟩]⟩, msg, ?_, rfl, by simp, rfl,
    by simp [mkSummary]⟩
  unfold execute
  rw [hb, ok_bind, hne]
  simp only [Bool.false_eq_true, if_false]
  rw [htr, hhalt, ok_bind]
  rfl

/-- C2, witness: grayscale, then an unknown operation, then grayscale,
under strict mode. -/
theorem strict_mode_short_circuit_witness :
    ∃ res msg, execute implW false (0:ℕ)
        [.vdict [("op", .vstr "grayscale")], .vdict [("op", .vstr "bogus")],
         .vdict [("op", .vstr "grayscale")]] false = .ok res ∧
      res.success = false ∧
      res.errors = [⟨.vstr "bogus", 1, msg⟩] ∧
      res.image = chainImage implW false 0
        [⟨.vstr "grayscale", .vdict [], .vbool true⟩] ∧
      res.progress_info.steps.length = 1 + 1 :=
  strict_mode_short_circuit implW false 0
    [.vdict [("op", .vstr "grayscale")], .vdict [("op", .vstr "bogus")],
     .vdict [("op", .vstr "grayscale")]]
    [⟨.vstr "grayscale", .vdict [], .vbool true⟩]
    ⟨.vstr "bogus", .vdict [], .vbool true⟩
    [⟨.vstr "grayscale", .vdict [], .vbool true⟩]
    rfl
    (fun s hs => by
      simp only [List.mem_singleton] at hs
      subst hs
      exact fun im => ⟨im + 1, rfl⟩)
    ⟨none, rfl⟩
    (fun im img2 h => Except.noConfusion h)

/-- C3: in lenient mode every enabled step runs (one outcome record per
step), each failure appends exactly one error entry, a failed step passes
the working image through unchanged (the result image is the chain that
applies successes only), and success holds iff no error accumulated.  In
particular, for [validOp, unknownOp, validOp] the result carries exactly
one error entry for the unknown step at index 1, success is false, and
the final image is both valid operations applied in order. -/
theorem continue_on_error_accounting {I : Type} (impl : Impl I)
    (preview : Bool) (img : I) (steps : List JVal) (active : List StepCfg)
    (res : PipelineResult I) (v1 u v2 : StepCfg)
    (hb : buildActiveSteps steps = .ok active)
    (hh : ∀ s ∈ active, hashableOp s)
    (hr : execute impl true img steps preview = .ok res) :
    (res.image = chainImage impl preview img active ∧
     res.progress_info.steps.length = active.length ∧
     res.errors.length =
       List.countP (fun r => r.success == some false) res.progress_info.steps ∧
     (res.success = true ↔ res.errors = [])) ∧
    (active = [v1, u, v2] →
      stepAlwaysOk impl preview v1 → opLookup u.op = .ok none →
      stepAlwaysOk impl preview v2 →
      ∃ a b, stepOutcome impl preview v1 img = .ok a ∧
        stepOutcome impl preview v2 a = .ok b ∧
        res.image = b ∧
        res.errors = [⟨u.op, 1, "Unknown operation: " ++ jRepr u.op⟩] ∧
        res.success = false) := by
  unfold execute at hr
  rw [hb, ok_bind] at hr
  by_cases hA : active.isEmpty
  · rw [if_pos hA] at hr
    cases hr
    have ha : active = [] := List.isEmpty_iff.mp hA
    subst ha
    refine ⟨⟨rfl, rfl, rfl, by simp⟩, fun hcon => by cases hcon⟩
  · rw [if_neg hA] at hr
    rw [runSteps_lenient impl preview active.length active 0 img [] [] [] hh,
      ok_bind] at hr
    rw [if_neg (by simp)] at hr
    cases hr
    rcases lenientRun_counts impl preview active.length active 0 img with
      ⟨hlen, hcount, himg⟩
    refine ⟨⟨by simpa [mkSummary] using himg, by simpa [mkSummary] using hlen,
      by simpa [mkSummary] using hcount, by simp [List.isEmpty_iff]⟩, ?_⟩
    intro heq hv1 hu hv2
    subst heq
    rcases hv1 img with ⟨a, h1⟩
    rcases hv2 a with ⟨b, h2⟩
    have hsoU : stepOutcome impl preview u a =
        .error ("Unknown operation: " ++ jRepr u.op) := by
      unfold stepOutcome
      rw [hu]
    refine ⟨a, b, h1, h2, ?_, ?_, ?_⟩
    · show (lenientRun impl preview _ 0 img [v1, u, v2]).1 = b
      rw [lenientRun, h1]
      dsimp only
      rw [lenientRun, hsoU]
      dsimp only
      rw [lenientRun, h2]
      dsimp only
      rw [lenientRun]
    · show ([] : List ErrInfo) ++ (lenientRun impl preview _ 0 img [v1, u, v2]).2.1 = _
      rw [lenientRun, h1]
      dsimp only
      rw [lenientRun, hsoU]
      dsimp only
      rw [lenientRun, h2]
      dsimp only
      rw [lenientRun]
      simp
    · show (([] : List ErrInfo) ++ (lenientRun impl preview _ 0 img [v1, u, v2]).2.1).isEmpty = false
      rw [lenientRun, h1]
      dsimp only
      rw [lenientRun, hsoU]
      dsimp only
      rw [lenientRun, h2]
      dsimp only
      rw [lenientRun]
      simp

/-- C3, witness: grayscale, unknown, grayscale under lenient mode. -/
theorem continue_on_error_accounting_witness :
    ∃ res : PipelineResult ℕ, execute implW true (0:ℕ)
        [.vdict [("op", .vstr "grayscale")], .vdict [("op", .vstr "bogus")],
         .vdict [("op", .vstr "grayscale")]] false = .ok res ∧
      ∃ a b : ℕ,
        stepOutcome implW false ⟨.vstr "grayscale", .vdict [], .vbool true⟩ 0 = .ok a ∧
        stepOutcome implW false ⟨.vstr "grayscale", .vdict [], .vbool true⟩ a = .ok b ∧
        res.image = b ∧
        res.errors = [⟨.vstr "bogus", 1, "Unknown operation: " ++ jRepr (.vstr "bogus")⟩] ∧
        res.success = false := by
  refine ⟨_, rfl, ?_⟩
  exact (continue_on_error_accounting implW false 0
    [.vdict [("op", .vstr "grayscale")], .vdict [("op", .vstr "bogus")],
     .vdict [("op", .vstr "grayscale")]]
    [⟨.vstr "grayscale", .vdict [], .vbool true⟩,
     ⟨.vstr "bogus", .vdict [], .vbool true⟩,
     ⟨.vstr "grayscale", .vdict [], .vbool true⟩] _
    ⟨.vstr "grayscale", .vdict [], .vbool true⟩
    ⟨.vstr "bogus", .vdict [], .vbool true⟩
    ⟨.vstr "grayscale", .vdict [], .vbool true⟩ rfl
    (fun s hs => by
      simp only [List.mem_cons, List.not_mem_nil, or_false] at hs
      rcases hs with h | h | h <;> subst h
      · exact ⟨_, rfl⟩
      · exact ⟨_, rfl⟩
      · exact ⟨_, rfl⟩)
    rfl).2 rfl (fun im => ⟨im + 1, rfl⟩) rfl (fun im => ⟨im + 1, rfl⟩)

/-- C5, witness: a non-denoise step passes through; an explicit nlm
denoise step is substituted with strength capped at 10. -/
theorem preview_substitutes_only_explicit_nlm_witness :
    adjust_params_for_preview "sharpen" [("amount", .vnum 50)] =
      .ok [("amount", .vnum 50)] ∧
    (adjust_params_for_preview "denoise"
        [("method", .vstr "nlm"), ("strength", .vnum 15)] =
      .ok (assocSet (assocSet [("method", .vstr "nlm"), ("strength", .vnum 15)]
            "method" (.vstr "bilateral")) "strength" (.vnum (min 15 10))) ∧
      min (15:ℚ) 10 ≤ 10) :=
  ⟨(preview_substitutes_only_explicit_nlm "sharpen" [("amount", .vnum 50)] 0).1
      (by decide),
   (preview_substitutes_only_explicit_nlm "denoise"
      [("method", .vstr "nlm"), ("strength", .vnum 15)] 15).2.2.2.2 rfl rfl⟩

/-- C4 (amended): for operations that report non-decreasing fractions in
[0,1] and finish with fraction 1 (as every registered operation does),
the emitted overall-percent sequence of a whole run is non-decreasing,
the summary's final percent is the last emitted percent (0 when none),
and under continue-on-error the trace ends at exactly 100 when the final
enabled step executes a registered operation that succeeds. -/
theorem progress_monotone_and_final {I : Type} (impl : Impl I)
    (cont preview : Bool) (img : I) (steps : List JVal) (tr : List ℚ)
    (res : PipelineResult I)
    (hg : GoodReporter impl)
    (ht : executeTrace impl cont img steps preview = .ok tr)
    (hr : execute impl cont img steps preview = .ok res) :
    List.Chain' (· ≤ ·) tr ∧
    res.progress_info.final_percent = tr.getLast?.getD 0 ∧
    (∀ active s, cont = true →
      buildActiveSteps steps = .ok active →
      active.getLast? = some s →
      stepAlwaysOk impl preview s →
      tr.getLast? = some 100) := by
  unfold executeTrace at ht
  unfold execute at hr
  cases hb : buildActiveSteps steps with
  | error e => rw [hb, error_bind] at ht; cases ht
  | ok active =>
    rw [hb, ok_bind] at ht hr
    by_cases hA : active.isEmpty
    · rw [if_pos hA] at ht hr
      cases ht
      cases hr
      have ha : active = [] := List.isEmpty_iff.mp hA
      refine ⟨List.chain'_nil, rfl, ?_⟩
      intro active2 s _ hb2 hlast _
      injection hb2 with hact
      rw [← hact, ha] at hlast
      cases hlast
    · rw [if_neg hA] at ht hr
      cases hrun : runSteps impl cont preview active.length 0 img active [] [] [] with
      | error e => rw [hrun, error_bind] at ht; cases ht
      | ok st =>
        rw [hrun, ok_bind] at ht hr
        cases ht
        have hch : List.Chain' (· ≤ ·) st.trace :=
          runSteps_trace_chain impl cont preview active.length hg active 0 img
            [] [] [] st List.chain'_nil (by intro x hx; cases hx) hrun
        refine ⟨hch, ?_, ?_⟩
        · by_cases hh : st.halted = true
          · rw [if_pos hh] at hr
            cases hr
            rfl
          · rw [if_neg hh] at hr
            cases hr
            rfl
        · intro active2 s hcont hb2 hlast hak
          injection hb2 with hact
          rw [← hact] at hlast
          subst hcont
          exact runSteps_trace_last impl preview active.length hg active s 0 img
            [] [] [] st (by simp) hlast hak hrun

/-- The witness implementation map obeys the reporting discipline. -/
lemma implW_goodReporter : GoodReporter implW := by
  intro name img ps
  have h1 : (implW name img ps).1 = [1] := by
    unfold implW
    split <;> rfl
  rw [h1]
  refine ⟨?_, List.chain'_singleton 1, fun img2 _ => rfl⟩
  intro r hr
  rw [List.mem_singleton] at hr
  subst hr
  norm_num

/-- C4, witness: one successful grayscale step; the emitted trace is
non-decreasing, the summary's final percent is its last entry, and it
ends at exactly 100. -/
theorem progress_monotone_and_final_witness :
    ∃ (res : PipelineResult ℕ) (tr : List ℚ),
      execute implW true (0:ℕ) [.vdict [("op", .vstr "grayscale")]] false = .ok res ∧
      executeTrace implW true (0:ℕ) [.vdict [("op", .vstr "grayscale")]] false =
        .ok tr ∧
      List.Chain' (· ≤ ·) tr ∧
      res.progress_info.final_percent = tr.getLast?.getD 0 ∧
      tr.getLast? = some 100 := by
  refine ⟨_, _, rfl, rfl, ?_⟩
  have h := progress_monotone_and_final implW true false 0
    [.vdict [("op", .vstr "grayscale")]] _ _ implW_goodReporter rfl rfl
  exact ⟨h.1, h.2.1, h.2.2 [⟨.vstr "grayscale", .vdict [], .vbool true⟩]
    ⟨.vstr "grayscale", .vdict [], .vbool true⟩ rfl rfl rfl (fun im => ⟨im + 1, rfl⟩)⟩

/-- C4, counterexample to the claim as stated: with [grayscale,
unknownOp] under continue-on-error the pipeline completes (success=false,
two step outcomes recorded) with a step executed, yet the one reported
percentage — also the summary's final percent — is 50, not 100: the
failing last step emits no progress events at all. -/
theorem progress_not_always_ending_at_100 :
    executeTrace implW true (0:ℕ)
      [.vdict [("op", .vstr "grayscale")], .vdict [("op", .vstr "bogus")]] false =
      .ok [emitted_percent ((0:ℕ):ℤ) 1 2] ∧
    Except.map (fun r : PipelineResult ℕ =>
        (r.success, r.progress_info.steps.length, r.progress_info.final_percent))
      (execute implW true (0:ℕ)
        [.vdict [("op", .vstr "grayscale")], .vdict [("op", .vstr "bogus")]] false) =
      .ok (false, 2, emitted_percent ((0:ℕ):ℤ) 1 2) ∧
    emitted_percent ((0:ℕ):ℤ) 1 2 = 50 ∧
    ((50:ℚ) ≠ 100) := by
  refine ⟨rfl, rfl, ?_, by norm_num⟩
  unfold emitted_percent overall_percent step_contribution
  norm_num

end RenOCR
